import Mathlib

/-!
Verification of the repository-ingestion and semantic-indexing pipeline:
the GitHub tree fetcher / filter / priority sort / batched downloader
(src/services/github.ts) and the chunker / indexer / cosine-similarity
search layer (the RAG service module).

JavaScript strings are modelled as Lean `String` (a list of characters);
the JS string primitives used by the code (`includes`, `endsWith`,
`startsWith`, `split`, `slice`, `toLowerCase`, template interpolation of a
counter) are given executable character-list models below.  JS `number`
vector components are modelled as exact rationals; the floating-point
cosine scores computed by the code are idealised as exact real numbers.
-/

/-! ### Generic character-list helpers (models of JS string primitives) -/

/-- Boolean test that `p` is a leading segment of `s` (JS `startsWith`). -/
def leadsWith : List Char → List Char → Bool
  | [], _ => true
  | _ :: _, [] => false
  | a :: as, b :: bs => a == b && leadsWith as bs

/-- Boolean test that `pat` is a trailing segment of `s` (JS `endsWith`). -/
def trailsWith (s pat : List Char) : Bool :=
  leadsWith pat (s.drop (s.length - pat.length))

/-- Boolean substring containment (JS `includes`). -/
def containsSeq : List Char → List Char → Bool
  | [], pat => leadsWith pat []
  | s@(_ :: rest), pat => leadsWith pat s || containsSeq rest pat

/-- String-level wrappers. -/
def containsS (s pat : String) : Bool := containsSeq s.data pat.data

def trailsWithS (s pat : String) : Bool := trailsWith s.data pat.data

def lowerS (s : String) : String := String.mk (s.data.map Char.toLower)

/-- Little-endian decimal digits of `n` (empty for 0); fuel-driven so that
the kernel can evaluate it. -/
def natToDecAux : Nat → Nat → List Char
  | 0, _ => []
  | fuel + 1, n => if n = 0 then [] else Nat.digitChar (n % 10) :: natToDecAux fuel (n / 10)

/-- Decimal rendering of a natural number, as JS template interpolation
of a counter produces it. -/
def natToDec (n : Nat) : String :=
  if n = 0 then "0" else String.mk (natToDecAux n n).reverse

/-- Value of a little-endian digit list; used only to prove `natToDec`
injective. -/
def decValueLE : List Char → Nat
  | [] => 0
  | c :: rest => (c.toNat - 48) + 10 * decValueLE rest

/-- Map with the element index, starting from a given offset. -/
def mapWithIndex (f : Nat → α → β) : Nat → List α → List β
  | _, [] => []
  | i, a :: as => f i a :: mapWithIndex f (i + 1) as

/-! #### Helper lemmas -/

theorem leadsWith_append_self (p r : List Char) : leadsWith p (p ++ r) = true := by
  induction p with
  | nil => rfl
  | cons a as ih => simp [leadsWith, ih]

theorem leadsWith_iff (p s : List Char) : leadsWith p s = true ↔ ∃ r, s = p ++ r := by
  induction p generalizing s with
  | nil => simp [leadsWith]
  | cons a as ih =>
    cases s with
    | nil => simp [leadsWith]
    | cons b bs =>
      simp only [leadsWith, Bool.and_eq_true, beq_iff_eq, ih]
      constructor
      · rintro ⟨rfl, r, rfl⟩; exact ⟨r, rfl⟩
      · rintro ⟨r, h⟩
        cases h
        exact ⟨rfl, r, rfl⟩

theorem leadsWith_of_le (p a b : List Char) (h : p.length ≤ a.length) :
    leadsWith p (a ++ b) = leadsWith p a := by
  induction p generalizing a with
  | nil => simp [leadsWith]
  | cons x xs ih =>
    cases a with
    | nil => simp at h
    | cons y ys =>
      simp only [List.cons_append, leadsWith, List.append_eq]
      rw [ih ys (by simpa using h)]

theorem natToDecAux_value : ∀ fuel n, n ≤ fuel → decValueLE (natToDecAux fuel n) = n := by
  intro fuel
  induction fuel with
  | zero => intro n h; interval_cases n; rfl
  | succ fuel ih =>
    intro n h
    by_cases hn : n = 0
    · simp [natToDecAux, hn, decValueLE]
    · have hdiv : n / 10 ≤ fuel := by
        have hlt : n / 10 < n := Nat.div_lt_self (Nat.pos_of_ne_zero hn) (by omega)
        omega
      have hdigit : (Nat.digitChar (n % 10)).toNat - 48 = n % 10 := by
        have hlt : n % 10 < 10 := Nat.mod_lt _ (by omega)
        interval_cases h : n % 10 <;> rfl
      simp only [natToDecAux, hn, if_false, decValueLE, ih _ hdiv, hdigit]
      omega

theorem natToDec_injective : Function.Injective natToDec := by
  intro a b h
  unfold natToDec at h
  by_cases ha : a = 0 <;> by_cases hb : b = 0 <;> simp [ha, hb] at h ⊢
  · -- a = 0, b ≠ 0 : "0" = rendering of b, take decimal values
    have hdata : ("0" : String).data = ((natToDecAux b b).reverse : List Char) := congrArg String.data h
    have : decValueLE (natToDecAux b b) = b := natToDecAux_value b b le_rfl
    have hrev : (natToDecAux b b) = ['0'] := by
      have := congrArg List.reverse hdata
      simpa using this.symm
    rw [hrev] at this
    simp [decValueLE] at this
    omega
  · have hdata : ((natToDecAux a a).reverse : List Char) = ("0" : String).data := congrArg String.data h
    have : decValueLE (natToDecAux a a) = a := natToDecAux_value a a le_rfl
    have hrev : (natToDecAux a a) = ['0'] := by
      have := congrArg List.reverse hdata
      simpa using this
    rw [hrev] at this
    simp [decValueLE] at this
    omega
  · have hdata := congrArg String.data h
    simp only [String.data] at hdata
    have hlist : natToDecAux a a = natToDecAux b b :=
      List.reverse_injective hdata
    have va := natToDecAux_value a a le_rfl
    have vb := natToDecAux_value b b le_rfl
    rw [hlist, vb] at va
    omega

theorem mapWithIndex_length (f : Nat → α → β) : ∀ i l, (mapWithIndex f i l).length = l.length := by
  intro i l
  induction l generalizing i with
  | nil => rfl
  | cons a as ih => simp [mapWithIndex, ih]

theorem mapWithIndex_map (f : Nat → α → β) (g : β → γ) :
    ∀ i l, (mapWithIndex f i l).map g = mapWithIndex (fun i a => g (f i a)) i l := by
  intro i l
  induction l generalizing i with
  | nil => rfl
  | cons a as ih => simp [mapWithIndex, ih]

theorem mapWithIndex_forall (f : Nat → α → β) (P : β → Prop) :
    ∀ i (l : List α), (∀ j a, a ∈ l → P (f j a)) → ∀ b ∈ mapWithIndex f i l, P b := by
  intro i l
  induction l generalizing i with
  | nil => intro _ b hb; simp [mapWithIndex] at hb
  | cons a as ih =>
    intro h b hb
    simp only [mapWithIndex, List.mem_cons] at hb
    rcases hb with rfl | hb
    · exact h _ _ (List.mem_cons_self a as)
    · exact ih _ (fun j x hx => h j x (List.mem_cons_of_mem a hx)) _ hb

/-! ### The chunker (`chunkCode` in the RAG service module)

`chunkCode` scans the assembled corpus with the JS regex
`/--- FILE: (.*?) ---\n([\s\S]*?)\n--- END OF FILE ---/g`:
at the first position where the whole pattern matches, the lazy file-name
group takes the shortest newline-free run up to the next ` ---\n`, the lazy
content group takes the shortest run up to the next `\n--- END OF FILE ---`,
and scanning resumes after the match.  Files longer than 2000 characters are
re-split into 2000-character pieces (`content.match(/[\s\S]{1,2000}/g)`)
labelled `<name> (Part i)`; ids are `chunk-<counter>` with a global counter. -/

/-- A code chunk; `embedding` is the optional vector attached by the
indexer (absent on the chunks `chunkCode` itself produces). -/
structure CodeChunk where
  id : String
  fileName : String
  content : String
  embedding : Option (List ℚ) := none
deriving DecidableEq

def fileMarkL : List Char := "--- FILE: ".data

def headerMarkL : List Char := " ---\n".data

def endMarkL : List Char := "\n--- END OF FILE ---".data

/-- Scan for the first occurrence of `needle`; return the text before it
and the text after it.  With `noNl` the scanned-over text may not contain a
newline (the file-name group's `.` does not match newlines).  This is the
lazy-group semantics of the regex. -/
def scanUntil (needle : List Char) (noNl : Bool) : List Char → Option (List Char × List Char)
  | [] => if leadsWith needle [] then some ([], []) else none
  | ch :: rest =>
    if leadsWith needle (ch :: rest) then some ([], (ch :: rest).drop needle.length)
    else if noNl && ch == '\n' then none
    else (scanUntil needle noNl rest).map (fun pr => (ch :: pr.1, pr.2))

/-- Try to match the whole record pattern at the head of `s`; on success
return the file name, the content, and the rest of the input after the
match. -/
def matchRecord (s : List Char) : Option (List Char × List Char × List Char) :=
  if leadsWith fileMarkL s then
    match scanUntil headerMarkL true (s.drop 10) with
    | none => none
    | some (f, r) =>
      match scanUntil endMarkL false r with
      | none => none
      | some (c, r2) => some (f, c, r2)
  else none

/-- The regex `exec` loop: find the first position where the pattern
matches, emit the groups, continue after the match.  Fuel-driven (one unit
per scanned position / match) so the kernel can evaluate it; the initial
fuel `s.length` always suffices. -/
def extractCore : Nat → List Char → List (List Char × List Char)
  | 0, _ => []
  | _ + 1, [] => []
  | fuel + 1, ch :: rest =>
    match matchRecord (ch :: rest) with
    | some (f, c, r2) => (f, c) :: extractCore fuel r2
    | none => extractCore fuel rest

/-- Greedy split into pieces of (at most) 2000 characters, the behaviour of
`content.match(/[\s\S]{1,2000}/g)` on a non-empty string. -/
def subPieces : Nat → List Char → List (List Char)
  | 0, _ => []
  | _ + 1, [] => []
  | fuel + 1, l => l.take 2000 :: subPieces fuel (l.drop 2000)

/-- Turn the extracted (fileName, content) pairs into chunks: contents of
more than 2000 characters are split into parts, ids use a global counter. -/
def buildChunks : Nat → List (List Char × List Char) → List CodeChunk
  | _, [] => []
  | idx, (f, c) :: rest =>
    if 2000 < c.length then
      let pieces := subPieces c.length c
      (mapWithIndex (fun i sc =>
        { id := "chunk-" ++ natToDec (idx + i),
          fileName := String.mk f ++ " (Part " ++ natToDec (i + 1) ++ ")",
          content := String.mk sc,
          embedding := none }) 0 pieces) ++ buildChunks (idx + pieces.length) rest
    else
      { id := "chunk-" ++ natToDec idx, fileName := String.mk f,
        content := String.mk c, embedding := none } :: buildChunks (idx + 1) rest

/-- `chunkCode` from the RAG service module. -/
def chunkCode (s : String) : List CodeChunk :=
  buildChunks 0 (extractCore s.data.length s.data)

/-! ### The corpus assembler (`fetchGithubRepoContents`, download phase)

Each successfully downloaded file is wrapped in the delimiter pair and the
records are concatenated (`results.join("")`). -/

/-- One corpus file record, exactly as the downloader formats it. -/
def wrapFile (path content : String) : String :=
  "--- FILE: " ++ path ++ " ---\n" ++ content ++ "\n--- END OF FILE ---\n\n"

/-- Concatenation of the records (JS `array.join("")`). -/
def assembleCorpus (files : List (String × String)) : String :=
  files.foldr (fun p acc => wrapFile p.1 p.2 ++ acc) ""

/-- Character-level view of one wrapped record. -/
def wrapL (f c : List Char) : List Char :=
  fileMarkL ++ f ++ headerMarkL ++ c ++ endMarkL ++ ['\n', '\n']

/-! #### Basic facts about the delimiters and string data -/

theorem fileMarkL_length : fileMarkL.length = 10 := rfl

theorem headerMarkL_length : headerMarkL.length = 5 := rfl

theorem endMarkL_length : endMarkL.length = 20 := rfl

theorem stringDataAppend (a b : String) : (a ++ b).data = a.data ++ b.data := by
  cases a; cases b; rfl

theorem stringMkData (s : String) : String.mk s.data = s := by cases s; rfl

theorem stringDataInjective : Function.Injective String.data := by
  intro a b h
  exact (stringMkData a).symm.trans ((congrArg String.mk h).trans (stringMkData b))

theorem stringMkLength (l : List Char) : (String.mk l).length = l.length := rfl

theorem leadsWith_nil (p : List Char) : leadsWith p [] = true ↔ p = [] := by
  cases p <;> simp [leadsWith]

/-! #### Soundness of the scanner -/

theorem scanUntil_sound (needle : List Char) (noNl : Bool) :
    ∀ t pre r, scanUntil needle noNl t = some (pre, r) → t = pre ++ needle ++ r := by
  intro t
  induction t with
  | nil =>
    intro pre r h
    rw [scanUntil] at h
    by_cases hl : leadsWith needle [] = true
    · rw [if_pos hl] at h
      obtain rfl : needle = [] := (leadsWith_nil needle).mp hl
      cases h
      rfl
    · rw [if_neg hl] at h; cases h
  | cons ch rest ih =>
    intro pre r h
    rw [scanUntil] at h
    by_cases hl : leadsWith needle (ch :: rest) = true
    · rw [if_pos hl] at h
      obtain ⟨w, hw⟩ := (leadsWith_iff needle (ch :: rest)).mp hl
      rw [hw] at h ⊢
      rw [List.drop_left] at h
      cases h
      rfl
    · rw [if_neg hl] at h
      by_cases hnl : (noNl && ch == '\n') = true
      · rw [if_pos hnl] at h; cases h
      · rw [if_neg hnl] at h
        cases hsc : scanUntil needle noNl rest with
        | none => rw [hsc] at h; cases h
        | some pr =>
          rw [hsc] at h
          cases h
          have := ih pr.1 pr.2 (by rw [hsc])
          simp only [List.cons_append]
          rw [← this]

/-! #### Completeness of the scanner on clean input -/

/-- No occurrence of `needle` may start strictly inside `pre` in
`pre ++ needle`: the genuine occurrence at position `pre.length` is the
first one the lazy group can stop at. -/
def cleanBefore (needle pre : List Char) : Prop :=
  ∀ i, i < pre.length → leadsWith needle ((pre ++ needle).drop i) = false

theorem scanUntil_complete (needle : List Char) (noNl : Bool) :
    ∀ pre u, needle ≠ [] → cleanBefore needle pre →
    (noNl = true → ('\n' : Char) ∉ pre) →
    scanUntil needle noNl (pre ++ needle ++ u) = some (pre, u) := by
  intro pre
  induction pre with
  | nil =>
    intro u hne _ _
    cases hn : needle with
    | nil => exact absurd hn hne
    | cons n0 ns =>
      subst hn
      simp only [List.nil_append]
      rw [show (n0 :: ns) ++ u = n0 :: (ns ++ u) from rfl, scanUntil]
      rw [if_pos (by exact leadsWith_append_self (n0 :: ns) u)]
      rw [show n0 :: (ns ++ u) = (n0 :: ns) ++ u from rfl, List.drop_left]
  | cons ch pre' ih =>
    intro u hne hclean hnl
    have hfalse : leadsWith needle ((ch :: pre') ++ needle ++ u) = false := by
      have h0 := hclean 0 (by simp)
      simp only [List.drop_zero] at h0
      have hle : needle.length ≤ ((ch :: pre') ++ needle).length := by
        simp; omega
      calc leadsWith needle ((ch :: pre') ++ needle ++ u)
          = leadsWith needle (((ch :: pre') ++ needle) ++ u) := by rw [List.append_assoc]
        _ = leadsWith needle ((ch :: pre') ++ needle) := leadsWith_of_le _ _ _ hle
        _ = false := h0
    have hstep : ((ch :: pre') ++ needle ++ u) = ch :: (pre' ++ needle ++ u) := rfl
    rw [hstep, scanUntil]
    rw [show ch :: (pre' ++ needle ++ u) = (ch :: pre') ++ needle ++ u from rfl, if_neg (by rw [hfalse]; simp)]
    have hnl2 : (noNl && ch == '\n') = false := by
      cases hb : noNl with
      | false => rfl
      | true =>
        have : ch ≠ '\n' := by
          intro hch
          exact (hnl hb) (by rw [← hch]; exact List.mem_cons_self ch pre')
        simp [this]
    rw [if_neg (by rw [hnl2]; simp)]
    have hclean' : cleanBefore needle pre' := by
      intro i hi
      have := hclean (i + 1) (by simpa using Nat.succ_lt_succ hi)
      simpa using this
    have hnl' : noNl = true → ('\n' : Char) ∉ pre' := by
      intro hb
      have := hnl hb
      intro hmem
      exact this (List.mem_cons_of_mem ch hmem)
    rw [ih u hne hclean' hnl']
    rfl

theorem getElemQ_append_left (l₁ l₂ : List Char) (n : Nat) (h : n < l₁.length) :
    (l₁ ++ l₂)[n]? = l₁[n]? := by
  rw [List.getElem?_append, if_pos h]

theorem getElemQ_append_right (l₁ l₂ : List Char) (n : Nat) (h : l₁.length ≤ n) :
    (l₁ ++ l₂)[n]? = l₂[n - l₁.length]? := by
  rw [List.getElem?_append, if_neg (by omega)]

theorem headerMark_no_nl : ∀ j, j < 4 → headerMarkL[j]? ≠ some '\n' := by decide

theorem endMark_nl_only_head : ∀ k, k < 20 → 0 < k → endMarkL[k]? ≠ some '\n' := by decide

theorem cleanBefore_header (f : List Char) (hf : ('\n' : Char) ∉ f) :
    cleanBefore headerMarkL f := by
  intro i hi
  by_contra hcon
  have htrue : leadsWith headerMarkL ((f ++ headerMarkL).drop i) = true := by
    cases h : leadsWith headerMarkL ((f ++ headerMarkL).drop i) with
    | false => exact absurd h hcon
    | true => rfl
  obtain ⟨r, hr⟩ := (leadsWith_iff _ _).mp htrue
  have h4 : ((f ++ headerMarkL).drop i)[4]? = some '\n' := by
    rw [hr]
    rw [getElemQ_append_left _ _ _ (by rw [headerMarkL_length]; omega)]
    decide
  rw [List.getElem?_drop] at h4
  by_cases hcase : i + 4 < f.length
  · rw [getElemQ_append_left _ _ _ hcase] at h4
    have : '\n' ∈ f := by
      have := List.getElem?_eq_some.mp h4
      obtain ⟨hlt, hval⟩ := this
      rw [← hval]
      exact List.getElem_mem hlt
    exact hf this
  · have hge : f.length ≤ i + 4 := by omega
    rw [getElemQ_append_right _ _ _ hge] at h4
    have hj : i + 4 - f.length < 4 := by omega
    exact headerMark_no_nl _ hj h4

theorem cleanBefore_end (c : List Char) (hc : ¬ endMarkL <:+: c) :
    cleanBefore endMarkL c := by
  intro i hi
  by_contra hcon
  have htrue : leadsWith endMarkL ((c ++ endMarkL).drop i) = true := by
    cases h : leadsWith endMarkL ((c ++ endMarkL).drop i) with
    | false => exact absurd h hcon
    | true => rfl
  have hdropsplit : (c ++ endMarkL).drop i = c.drop i ++ endMarkL :=
    List.drop_append_of_le_length (le_of_lt hi)
  rw [hdropsplit] at htrue
  obtain ⟨r, hr⟩ := (leadsWith_iff _ _).mp htrue
  have hklen : (c.drop i).length = c.length - i := List.length_drop i c
  by_cases hk : 20 ≤ c.length - i
  · -- the needle fits inside `c` starting at `i`: a genuine infix, contradiction
    have htake : (c.drop i).take 20 = endMarkL := by
      have h1 : (c.drop i ++ endMarkL).take 20 = (c.drop i).take 20 :=
        List.take_append_of_le_length (by omega)
      have h2 : (endMarkL ++ r).take 20 = endMarkL := by
        rw [← endMarkL_length]; exact List.take_left endMarkL r
      rw [← h1, hr, h2]
    apply hc
    refine ⟨c.take i, (c.drop i).drop 20, ?_⟩
    calc c.take i ++ endMarkL ++ (c.drop i).drop 20
        = c.take i ++ ((c.drop i).take 20 ++ (c.drop i).drop 20) := by
          rw [htake, List.append_assoc]
      _ = c.take i ++ c.drop i := by rw [List.take_append_drop]
      _ = c := List.take_append_drop i c
  · have hkpos : 0 < c.length - i := by omega
    set k := c.length - i with hkdef
    have hlhs : (c.drop i ++ endMarkL)[k]? = some '\n' := by
      rw [getElemQ_append_right _ _ _ (by omega)]
      have : k - (c.drop i).length = 0 := by omega
      rw [this]
      decide
    have hrhs : (c.drop i ++ endMarkL)[k]? = endMarkL[k]? := by
      rw [hr, getElemQ_append_left _ _ _ (by rw [endMarkL_length]; omega)]
    rw [hrhs] at hlhs
    exact endMark_nl_only_head k (by omega) hkpos hlhs

/-! #### The record matcher -/

theorem matchRecord_sound : ∀ s f c r, matchRecord s = some (f, c, r) →
    s = fileMarkL ++ f ++ headerMarkL ++ c ++ endMarkL ++ r := by
  intro s f c r h
  unfold matchRecord at h
  by_cases hl : leadsWith fileMarkL s = true
  · rw [if_pos hl] at h
    obtain ⟨w, hw⟩ := (leadsWith_iff _ _).mp hl
    subst hw
    rw [show (fileMarkL ++ w).drop 10 = (fileMarkL ++ w).drop fileMarkL.length from by rw [fileMarkL_length],
      List.drop_left] at h
    cases hsc : scanUntil headerMarkL true w with
    | none => rw [hsc] at h; cases h
    | some p =>
      rw [hsc] at h
      obtain ⟨f', r'⟩ := p
      dsimp only at h
      cases hsc2 : scanUntil endMarkL false r' with
      | none => rw [hsc2] at h; cases h
      | some p2 =>
        rw [hsc2] at h
        obtain ⟨c', r2⟩ := p2
        dsimp only at h
        cases h
        have h1 := scanUntil_sound headerMarkL true w _ _ hsc
        have h2 := scanUntil_sound endMarkL false r' _ _ hsc2
        rw [h1, h2]
        simp [List.append_assoc]
  · rw [if_neg hl] at h; cases h

theorem matchRecord_complete (f c s : List Char)
    (hf : ('\n' : Char) ∉ f) (hc : ¬ endMarkL <:+: c) :
    matchRecord (wrapL f c ++ s) = some (f, c, '\n' :: '\n' :: s) := by
  have hshape : wrapL f c ++ s =
      fileMarkL ++ (f ++ headerMarkL ++ (c ++ endMarkL ++ ('\n' :: '\n' :: s))) := by
    unfold wrapL
    simp [List.append_assoc]
  unfold matchRecord
  rw [hshape, if_pos (leadsWith_append_self _ _)]
  rw [show (10 : Nat) = fileMarkL.length from rfl, List.drop_left]
  have h1 : scanUntil headerMarkL true (f ++ headerMarkL ++ (c ++ endMarkL ++ ('\n' :: '\n' :: s)))
      = some (f, c ++ endMarkL ++ ('\n' :: '\n' :: s)) :=
    scanUntil_complete headerMarkL true f _ (by decide) (cleanBefore_header f hf) (fun _ => hf)
  rw [h1]
  dsimp only
  have h2 : scanUntil endMarkL false (c ++ endMarkL ++ ('\n' :: '\n' :: s))
      = some (c, '\n' :: '\n' :: s) :=
    scanUntil_complete endMarkL false c _ (by decide) (cleanBefore_end c hc) (by intro h; cases h)
  rw [h2]

theorem matchRecord_nl (t : List Char) : matchRecord ('\n' :: t) = none := by
  unfold matchRecord
  rw [if_neg]
  rw [show fileMarkL = '-' :: "-- FILE: ".data from rfl]
  simp [leadsWith]

/-! #### The extraction loop -/

theorem extractCore_nil : ∀ fuel, extractCore fuel [] = [] := by
  intro fuel; cases fuel <;> rfl

theorem extractCore_succ (g : Nat) (t : List Char) (ht : t ≠ []) :
    extractCore (g + 1) t =
      (match matchRecord t with
        | some (f, c, r2) => (f, c) :: extractCore g r2
        | none => extractCore g t.tail) := by
  cases t with
  | nil => exact absurd rfl ht
  | cons ch rest => rfl

theorem matchRecord_some_length (s f c r : List Char) (h : matchRecord s = some (f, c, r)) :
    s.length = 35 + f.length + c.length + r.length := by
  have := matchRecord_sound s f c r h
  have hlen := congrArg List.length this
  simp [fileMarkL_length, headerMarkL_length, endMarkL_length, List.length_append] at hlen
  omega

theorem extractCore_congr : ∀ n t f1 f2, t.length ≤ n → t.length ≤ f1 → t.length ≤ f2 →
    extractCore f1 t = extractCore f2 t := by
  intro n
  induction n with
  | zero =>
    intro t f1 f2 hn _ _
    have : t = [] := List.length_eq_zero.mp (by omega)
    subst this
    rw [extractCore_nil, extractCore_nil]
  | succ n ih =>
    intro t f1 f2 hn h1 h2
    cases t with
    | nil => rw [extractCore_nil, extractCore_nil]
    | cons ch rest =>
      have hlen : (ch :: rest).length = rest.length + 1 := rfl
      obtain ⟨a, rfl⟩ : ∃ a, f1 = a + 1 := by
        cases f1 with
        | zero => simp at h1
        | succ a => exact ⟨a, rfl⟩
      obtain ⟨b, rfl⟩ : ∃ b, f2 = b + 1 := by
        cases f2 with
        | zero => simp at h2
        | succ b => exact ⟨b, rfl⟩
      rw [extractCore_succ a _ (by simp), extractCore_succ b _ (by simp)]
      cases hm : matchRecord (ch :: rest) with
      | none =>
        simp only [List.tail_cons]
        exact ih rest a b (by omega) (by omega) (by omega)
      | some v =>
        obtain ⟨f, c, r2⟩ := v
        have hr2 := matchRecord_some_length _ _ _ _ hm
        simp only [hlen] at hr2
        simp only []
        rw [ih r2 a b (by omega) (by omega) (by omega)]

/-! #### Extraction of an assembled corpus -/

theorem wrapL_length (f c : List Char) : (wrapL f c).length = 37 + f.length + c.length := by
  unfold wrapL
  simp only [List.length_append, fileMarkL_length, headerMarkL_length, endMarkL_length,
    List.length_cons, List.length_nil]
  omega

theorem assembleCorpus_cons (p : String × String) (rest : List (String × String)) :
    assembleCorpus (p :: rest) = wrapFile p.1 p.2 ++ assembleCorpus rest := rfl

theorem wrapFile_data (a b : String) : (wrapFile a b).data = wrapL a.data b.data := by
  unfold wrapFile wrapL fileMarkL headerMarkL endMarkL
  simp only [stringDataAppend]
  simp [List.append_assoc]

theorem extract_assembled :
    ∀ files : List (String × String),
    (∀ p ∈ files, ('\n' : Char) ∉ p.1.data ∧ ¬ endMarkL <:+: p.2.data) →
    ∀ fuel, (assembleCorpus files).data.length ≤ fuel →
    extractCore fuel (assembleCorpus files).data = files.map (fun p => (p.1.data, p.2.data)) := by
  intro files
  induction files with
  | nil =>
    intro _ fuel _
    rw [show (assembleCorpus []).data = [] from rfl, extractCore_nil]
    rfl
  | cons p rest ih =>
    intro hwf fuel hfuel
    have hdata : (assembleCorpus (p :: rest)).data =
        wrapL p.1.data p.2.data ++ (assembleCorpus rest).data := by
      rw [assembleCorpus_cons, stringDataAppend, wrapFile_data]
    rw [hdata] at hfuel ⊢
    have hlen : (wrapL p.1.data p.2.data ++ (assembleCorpus rest).data).length =
        37 + p.1.data.length + p.2.data.length + (assembleCorpus rest).data.length := by
      rw [List.length_append, wrapL_length]
    obtain ⟨g, rfl⟩ : ∃ g, fuel = g + 1 := by
      cases fuel with
      | zero => exfalso; rw [hlen] at hfuel; omega
      | succ g => exact ⟨g, rfl⟩
    have hp := hwf p (List.mem_cons_self p rest)
    have hne : wrapL p.1.data p.2.data ++ (assembleCorpus rest).data ≠ [] := by
      intro hnil
      have := congrArg List.length hnil
      rw [hlen] at this
      simp at this
    rw [extractCore_succ g _ hne,
      matchRecord_complete p.1.data p.2.data (assembleCorpus rest).data hp.1 hp.2]
    dsimp only
    rw [hlen] at hfuel
    obtain ⟨g1, rfl⟩ : ∃ g1, g = g1 + 1 := by
      cases g with
      | zero => exfalso; omega
      | succ g1 => exact ⟨g1, rfl⟩
    rw [extractCore_succ g1 _ (by simp), matchRecord_nl]
    simp only [List.tail_cons]
    obtain ⟨g2, rfl⟩ : ∃ g2, g1 = g2 + 1 := by
      cases g1 with
      | zero => exfalso; omega
      | succ g2 => exact ⟨g2, rfl⟩
    rw [extractCore_succ g2 _ (by simp), matchRecord_nl]
    simp only [List.tail_cons]
    rw [ih (fun q hq => hwf q (List.mem_cons_of_mem p hq)) g2 (by omega)]
    rfl

/-! #### From extracted pairs to chunks -/

theorem buildChunks_pairs : ∀ (pairs : List (List Char × List Char)) (idx : Nat),
    (buildChunks idx pairs).map (fun ch => (ch.fileName, ch.content)) =
      pairs.flatMap (fun pr =>
        if 2000 < pr.2.length then
          mapWithIndex (fun i sc =>
            (String.mk pr.1 ++ " (Part " ++ natToDec (i + 1) ++ ")", String.mk sc)) 0
            (subPieces pr.2.length pr.2)
        else [(String.mk pr.1, String.mk pr.2)]) := by
  intro pairs
  induction pairs with
  | nil => intro idx; rfl
  | cons pr rest ih =>
    intro idx
    obtain ⟨f, c⟩ := pr
    by_cases hlen : 2000 < c.length
    · simp only [buildChunks, if_pos hlen, List.map_append, List.flatMap_cons]
      rw [mapWithIndex_map, ih]
    · simp only [buildChunks, if_neg hlen, List.map_cons, List.flatMap_cons]
      rw [ih]
      rfl

theorem subPieces_flatten : ∀ fuel (l : List Char), l.length ≤ fuel →
    (subPieces fuel l).flatten = l := by
  intro fuel
  induction fuel with
  | zero =>
    intro l h
    have : l = [] := List.length_eq_zero.mp (by omega)
    subst this; rfl
  | succ fuel ih =>
    intro l h
    cases l with
    | nil => rfl
    | cons a as =>
      show ((a :: as).take 2000 :: subPieces fuel ((a :: as).drop 2000)).flatten = a :: as
      have hdrop : (List.drop 2000 (a :: as)).length ≤ fuel := by
        rw [List.length_drop]
        simp only [List.length_cons] at h ⊢
        omega
      rw [List.flatten_cons, ih _ hdrop]
      exact List.take_append_drop 2000 (a :: as)

theorem subPieces_le : ∀ fuel (l : List Char), ∀ p ∈ subPieces fuel l, p.length ≤ 2000 := by
  intro fuel
  induction fuel with
  | zero => intro l p hp; simp [subPieces] at hp
  | succ fuel ih =>
    intro l p hp
    cases l with
    | nil => simp [subPieces] at hp
    | cons a as =>
      simp only [subPieces, List.mem_cons] at hp
      rcases hp with rfl | hp
      · rw [List.length_take]; omega
      · exact ih _ _ hp

/-! #### Chunk ids -/

/-- Number of chunks produced for a list of extracted pairs. -/
def chunkCount : List (List Char × List Char) → Nat
  | [] => 0
  | (_, c) :: rest =>
    (if 2000 < c.length then (subPieces c.length c).length else 1) + chunkCount rest

theorem mapWithIndex_shift_range (h : Nat → β) :
    ∀ (l : List α) (j i : Nat),
      mapWithIndex (fun k _ => h (j + k)) i l = (List.range' (j + i) l.length).map h := by
  intro l
  induction l with
  | nil => intro j i; rfl
  | cons a as ih =>
    intro j i
    show h (j + i) :: mapWithIndex (fun k _ => h (j + k)) (i + 1) as = _
    rw [ih j (i + 1)]
    rw [List.length_cons, List.range'_succ (j + i) as.length 1]
    rw [show j + i + 1 = j + (i + 1) from by omega]
    rfl

theorem rangeQ_append (s m n : Nat) :
    List.range' s m ++ List.range' (s + m) n = List.range' s (m + n) := by
  have := List.range'_append s m n 1
  simpa [Nat.add_comm] using this

theorem buildChunks_ids : ∀ (pairs : List (List Char × List Char)) (idx : Nat),
    (buildChunks idx pairs).map (fun ch => ch.id) =
      (List.range' idx (chunkCount pairs)).map (fun n => "chunk-" ++ natToDec n) := by
  intro pairs
  induction pairs with
  | nil => intro idx; rfl
  | cons pr rest ih =>
    intro idx
    obtain ⟨f, c⟩ := pr
    by_cases hlen : 2000 < c.length
    · simp only [buildChunks, if_pos hlen, List.map_append, chunkCount]
      rw [mapWithIndex_map, ih]
      have hblock :
          mapWithIndex (fun i (_ : List Char) => ("chunk-" ++ natToDec (idx + i) : String)) 0
              (subPieces c.length c) =
            (List.range' idx (subPieces c.length c).length).map
              (fun n => "chunk-" ++ natToDec n) := by
        have := mapWithIndex_shift_range (fun n => ("chunk-" ++ natToDec n : String))
          (subPieces c.length c) idx 0
        simpa using this
      rw [hblock, ← List.map_append, rangeQ_append]
    · simp only [buildChunks, if_neg hlen, List.map_cons, chunkCount]
      rw [ih]
      have : List.range' idx (1 + chunkCount rest) = idx :: List.range' (idx + 1) (chunkCount rest) := by
        rw [Nat.add_comm 1 (chunkCount rest)]
        exact List.range'_succ idx (chunkCount rest) 1
      rw [this]
      rfl

theorem chunkId_injective : Function.Injective (fun n => (("chunk-" : String) ++ natToDec n)) := by
  intro a b h
  apply natToDec_injective
  apply stringDataInjective
  have hdata := congrArg String.data h
  rw [stringDataAppend, stringDataAppend] at hdata
  exact List.append_cancel_left hdata

theorem buildChunks_content_le : ∀ (pairs : List (List Char × List Char)) (idx : Nat),
    ∀ ch ∈ buildChunks idx pairs, ch.content.length ≤ 2000 := by
  intro pairs
  induction pairs with
  | nil => intro idx ch hch; simp [buildChunks] at hch
  | cons pr rest ih =>
    intro idx ch hch
    obtain ⟨f, c⟩ := pr
    by_cases hlen : 2000 < c.length
    · simp only [buildChunks, if_pos hlen, List.mem_append] at hch
      rcases hch with hch | hch
      · refine mapWithIndex_forall _ (fun ch => ch.content.length ≤ 2000) 0 _ ?_ ch hch
        intro j sc hsc
        simpa [stringMkLength] using subPieces_le c.length c sc hsc
      · exact ih _ ch hch
    · simp only [buildChunks, if_neg hlen, List.mem_cons] at hch
      rcases hch with rfl | hch
      · simpa [stringMkLength] using Nat.le_of_not_lt hlen
      · exact ih _ ch hch

theorem flatMapCongr (l : List α) (f g : α → List β) (h : ∀ a ∈ l, f a = g a) :
    l.flatMap f = l.flatMap g := by
  induction l with
  | nil => rfl
  | cons a as ih =>
    simp only [List.flatMap_cons]
    rw [h a (List.mem_cons_self a as), ih (fun x hx => h x (List.mem_cons_of_mem a hx))]

/-- C1 (amended): for delimiter-clean input files (no newline inside a file
name, no `"\n--- END OF FILE ---"` occurring inside a content), assembling a
corpus and chunking it recovers exactly the original (fileName, content)
pairs in order for every file of at most 2000 characters; every file
strictly over 2000 characters is recovered as its ordered 2000-character
sub-pieces, each labelled with the original file name plus a part index;
and the sub-pieces of any content concatenate back to that content. -/
theorem chunk_roundtrip (files : List (String × String))
    (hwf : ∀ p ∈ files, ('\n' : Char) ∉ p.1.data ∧ ¬ endMarkL <:+: p.2.data) :
    ((chunkCode (assembleCorpus files)).map (fun ch => (ch.fileName, ch.content)) =
      files.flatMap (fun p =>
        if 2000 < p.2.length then
          mapWithIndex (fun i sc => (p.1 ++ " (Part " ++ natToDec (i + 1) ++ ")", String.mk sc)) 0
            (subPieces p.2.length p.2.data)
        else [(p.1, p.2)])) ∧
    ∀ l : List Char, (subPieces l.length l).flatten = l := by
  constructor
  · unfold chunkCode
    rw [extract_assembled files hwf _ le_rfl, buildChunks_pairs, List.flatMap_map]
    apply flatMapCongr
    intro p _
    by_cases h2 : 2000 < p.2.data.length
    · rw [if_pos h2, if_pos (show 2000 < p.2.length from h2)]
      rfl
    · rw [if_neg h2, if_neg (show ¬ 2000 < p.2.length from h2)]
  · intro l
    exact subPieces_flatten l.length l le_rfl

/-- C1 witness: the amended round-trip evaluated at a concrete one-file
corpus. -/
theorem chunk_roundtrip_witness :
    (chunkCode (assembleCorpus [("a.ts", "hello")])).map (fun ch => (ch.fileName, ch.content)) =
      [("a.ts", "hello")] := by
  have h := (chunk_roundtrip [("a.ts", "hello")] (by decide)).1
  rw [h]
  decide

/-- C1 counterexample: as stated the claim fails.  A file whose content
(23 characters, under the threshold) contains the end delimiter is not
recovered — the lazy regex stops at the embedded delimiter and returns
content `"x"`; and a file of exactly 2000 characters (at the threshold) is
kept as one whole chunk labelled with the bare file name, not as
part-indexed sub-chunks. -/
theorem chunk_roundtrip_cex :
    ((chunkCode (assembleCorpus [("a", "x\n--- END OF FILE ---\ny")])).map
        (fun ch => (ch.fileName, ch.content)) ≠ [("a", "x\n--- END OF FILE ---\ny")]) ∧
    ((chunkCode (assembleCorpus [("b", String.mk (List.replicate 2000 'x'))])).map
        (fun ch => (ch.fileName, ch.content)) = [("b", String.mk (List.replicate 2000 'x'))]) := by
  constructor
  · decide
  · have hwf : ∀ p ∈ [(("b" : String), String.mk (List.replicate 2000 'x'))],
        ('\n' : Char) ∉ p.1.data ∧ ¬ endMarkL <:+: p.2.data := by
      intro p hp
      simp only [List.mem_singleton] at hp
      subst hp
      refine ⟨by decide, ?_⟩
      intro hinf
      have hmem : ('\n' : Char) ∈ (String.mk (List.replicate 2000 'x')).data :=
        hinf.subset (by decide : ('\n' : Char) ∈ endMarkL)
      have := List.eq_of_mem_replicate hmem
      cases this
    unfold chunkCode
    rw [extract_assembled _ hwf _ le_rfl, buildChunks_pairs]
    have hlen : ((String.mk (List.replicate 2000 'x')).data : List Char).length = 2000 := by
      rw [show (String.mk (List.replicate 2000 'x')).data = List.replicate 2000 'x' from rfl,
        List.length_replicate]
    simp only [List.map_cons, List.map_nil, List.flatMap_cons, List.flatMap_nil,
      List.append_nil, hlen]
    rw [if_neg (by omega)]

/-- C10: for every input string, every chunk `chunkCode` produces has
content of at most 2000 characters, and the generated chunk ids are
pairwise distinct. -/
theorem chunkCode_invariants (s : String) :
    ((chunkCode s).all fun ch => decide (ch.content.length ≤ 2000)) = true ∧
    ((chunkCode s).map (fun ch => ch.id)).Nodup := by
  constructor
  · rw [List.all_eq_true]
    intro ch hch
    exact decide_eq_true (buildChunks_content_le _ 0 ch hch)
  · rw [show chunkCode s = buildChunks 0 (extractCore s.data.length s.data) from rfl,
      buildChunks_ids]
    exact (List.nodup_range' 0 _ 1 (by omega)).map chunkId_injective

/-! ### The URL parser (`parseGithubUrl` in src/services/github.ts)

The WHATWG `new URL` platform parser is an external collaborator; it is
modelled as an oracle argument: `none` when `new URL(url)` throws (the
`catch` branch), otherwise the parsed hostname and pathname. -/

structure UrlParts where
  hostname : String
  pathname : String

/-- JS `string.split(sep)` for a one-character separator. -/
def splitOnChar (sep : Char) : List Char → List (List Char)
  | [] => [[]]
  | c :: rest =>
    if c = sep then [] :: splitOnChar sep rest
    else
      match splitOnChar sep rest with
      | [] => [[c]]
      | seg :: tail => (c :: seg) :: tail

/-- Drop a trailing `.git` (JS `repo.slice(0, -4)` under the
`endsWith('.git')` guard). -/
def stripGit (repo : List Char) : List Char :=
  if trailsWith repo (".git".data) then repo.take (repo.length - 4) else repo

def parseGithubUrl (parsed : Option UrlParts) : Option (String × String) :=
  match parsed with
  | none => none
  | some u =>
    if u.hostname ≠ "github.com" then none
    else
      match (splitOnChar '/' u.pathname.data).filter (fun seg => !seg.isEmpty) with
      | owner :: repo :: _ => some (String.mk owner, String.mk (stripGit repo))
      | _ => none

/-- The pathname `/seg₁/seg₂/…` built from path segments. -/
def mkPath (segs : List String) : String :=
  String.mk (segs.foldr (fun s acc => '/' :: (s.data ++ acc)) [])

theorem splitOnChar_cons_seg (sep : Char) :
    ∀ (a r : List Char) (seg : List Char) (tail : List (List Char)), sep ∉ a →
      splitOnChar sep r = seg :: tail →
      splitOnChar sep (a ++ r) = (a ++ seg) :: tail := by
  intro a
  induction a with
  | nil => intro r seg tail _ h; simpa using h
  | cons c a' ih =>
    intro r seg tail hsep h
    have hc : ¬ c = sep := fun hc => hsep (hc ▸ List.mem_cons_self c a')
    show splitOnChar sep (c :: (a' ++ r)) = ((c :: a') ++ seg) :: tail
    rw [splitOnChar, if_neg hc, ih r seg tail (fun hm => hsep (List.mem_cons_of_mem c hm)) h]
    rfl

theorem splitOnChar_mkPath : ∀ segs : List String, (∀ s ∈ segs, ('/' : Char) ∉ s.data) →
    splitOnChar '/' (mkPath segs).data = [] :: segs.map (fun s => s.data) := by
  intro segs
  induction segs with
  | nil => intro _; rfl
  | cons s rest ih =>
    intro h
    have hdata : (mkPath (s :: rest)).data = '/' :: (s.data ++ (mkPath rest).data) := rfl
    rw [hdata, splitOnChar, if_pos rfl]
    have hrest := ih (fun x hx => h x (List.mem_cons_of_mem s hx))
    rw [splitOnChar_cons_seg '/' s.data (mkPath rest).data ([] : List Char)
      (rest.map (fun s => s.data)) (h s (List.mem_cons_self s rest)) hrest]
    simp

/-- C7: the URL parser returns the owner/repo pair, with a trailing `.git`
stripped from the repo segment, for every parsed URL with hostname
`github.com` and at least two non-empty path segments (extra trailing
segments are ignored); it returns the `null` failure signal when the
platform URL parser throws, when the hostname differs from `github.com`,
or when fewer than two non-empty path segments are present. -/
theorem parseGithubUrl_spec :
    (parseGithubUrl none = none) ∧
    (∀ u : UrlParts, u.hostname ≠ "github.com" → parseGithubUrl (some u) = none) ∧
    (∀ u : UrlParts, u.hostname = "github.com" →
      ((splitOnChar '/' u.pathname.data).filter (fun seg => !seg.isEmpty)).length < 2 →
      parseGithubUrl (some u) = none) ∧
    (∀ (owner repo : String) (rest : List String),
      owner ≠ "" → ('/' : Char) ∉ owner.data →
      repo ≠ "" → ('/' : Char) ∉ repo.data →
      (∀ s ∈ rest, s ≠ "" ∧ ('/' : Char) ∉ s.data) →
      parseGithubUrl (some ⟨"github.com", mkPath (owner :: repo :: rest)⟩) =
        some (owner, String.mk (stripGit repo.data))) := by
  refine ⟨rfl, ?_, ?_, ?_⟩
  · intro u hu
    unfold parseGithubUrl
    dsimp only
    rw [if_pos hu]
  · intro u hu hlen
    unfold parseGithubUrl
    dsimp only
    rw [if_neg (show ¬ (u.hostname ≠ "github.com") from fun hc => hc hu)]
    cases hm : (splitOnChar '/' u.pathname.data).filter (fun seg => !seg.isEmpty) with
    | nil => rfl
    | cons a t =>
      cases t with
      | nil => rfl
      | cons b t2 =>
        rw [hm] at hlen
        simp only [List.length_cons] at hlen
        omega
  · intro owner repo rest ho1 ho2 hr1 hr2 hrest
    unfold parseGithubUrl
    dsimp only
    rw [if_neg (show ¬ (("github.com" : String) ≠ "github.com") from fun hc => hc rfl)]
    have hsegs : ∀ s ∈ owner :: repo :: rest, ('/' : Char) ∉ s.data := by
      intro s hs
      rcases List.mem_cons.mp hs with rfl | hs
      · exact ho2
      · rcases List.mem_cons.mp hs with rfl | hs
        · exact hr2
        · exact (hrest s hs).2
    rw [splitOnChar_mkPath _ hsegs]
    have hne : ∀ s ∈ owner :: repo :: rest, s ≠ "" := by
      intro s hs
      rcases List.mem_cons.mp hs with rfl | hs
      · exact ho1
      · rcases List.mem_cons.mp hs with rfl | hs
        · exact hr1
        · exact (hrest s hs).1
    have hfilter : (([] : List Char) :: (owner :: repo :: rest).map (fun s => s.data)).filter
        (fun seg => !seg.isEmpty) = (owner :: repo :: rest).map (fun s => s.data) := by
      show ((owner :: repo :: rest).map (fun s => s.data)).filter (fun seg => !seg.isEmpty) =
          (owner :: repo :: rest).map (fun s => s.data)
      apply List.filter_eq_self.mpr
      intro a ha
      obtain ⟨s, hs, rfl⟩ := List.mem_map.mp ha
      have : s.data ≠ [] := fun hd => (hne s hs) (stringDataInjective (by rw [hd]))
      simpa [List.isEmpty_iff]
    rw [hfilter]
    rfl

/-- C7 witness: the parser at the URL `https://github.com/facebook/react.git`. -/
theorem parseGithubUrl_witness :
    parseGithubUrl (some ⟨"github.com", mkPath ["facebook", "react.git"]⟩) =
      some ("facebook", "react") := by
  have h := parseGithubUrl_spec.2.2.2 "facebook" "react.git" []
    (by decide) (by decide) (by decide) (by decide)
    (by intro s hs; exact absurd hs (List.not_mem_nil s))
  rw [h]
  decide

/-! ### Error taxonomy of the tree fetcher (src/services/github.ts) -/

/-- HTTP `Response.ok` (status in the 2xx range). -/
def httpOk (status : Nat) : Bool := decide (200 ≤ status ∧ status ≤ 299)

/-- The distinct failures of `fetchGithubRepoContents` named by the spec;
each constructor stands for one thrown error message. -/
inductive GithubError where
  | repoNotFound
  | rateLimited
  | apiError (status : Nat)
  | branchNotFound (branch : String)
  | treeFetchFailed
  | noFilesFound
  | downloadFailed
deriving DecidableEq

/-- Error selection of the repository-metadata lookup
(`if (!repoRes.ok) ...`). -/
def repoLookupError (status : Nat) : Option GithubError :=
  if httpOk status then none
  else if status = 404 then some .repoNotFound
  else if status = 403 then some .rateLimited
  else some (.apiError status)

/-- Error selection of the tree lookup (`if (!treeRes.ok) ...`): a 404 is
`BranchNotFound`, every other failure (403 included) is the generic
"Failed to retrieve file structure." error. -/
def treeLookupError (branch : String) (status : Nat) : Option GithubError :=
  if httpOk status then none
  else if status = 404 then some (.branchNotFound branch)
  else some .treeFetchFailed

/-- The pre-download phase: metadata lookup first, then the tree lookup. -/
def fetchPhaseError (repoStatus : Nat) (branch : String) (treeStatus : Nat) :
    Option GithubError :=
  match repoLookupError repoStatus with
  | some e => some e
  | none => treeLookupError branch treeStatus

/-- C4 (amended): a 404 metadata lookup fails with `RepoNotFound`; a 403
metadata lookup fails with `RateLimited`; any other non-2xx metadata
response fails with `ApiError` carrying the status; when the metadata
lookup succeeds, a 404 tree lookup fails with `BranchNotFound` (distinct
from `RepoNotFound`), and any other non-2xx tree response — a 403
included — fails with the generic tree-structure error, not `RateLimited`. -/
theorem fetchPhase_taxonomy (rs ts : Nat) (b : String) :
    (rs = 404 → fetchPhaseError rs b ts = some .repoNotFound) ∧
    (rs = 403 → fetchPhaseError rs b ts = some .rateLimited) ∧
    (httpOk rs = false → rs ≠ 404 → rs ≠ 403 → fetchPhaseError rs b ts = some (.apiError rs)) ∧
    (httpOk rs = true → ts = 404 → fetchPhaseError rs b ts = some (.branchNotFound b) ∧
      GithubError.branchNotFound b ≠ GithubError.repoNotFound) ∧
    (httpOk rs = true → httpOk ts = false → ts ≠ 404 →
      fetchPhaseError rs b ts = some .treeFetchFailed) := by
  refine ⟨?_, ?_, ?_, ?_, ?_⟩
  · rintro rfl
    rfl
  · rintro rfl
    rfl
  · intro hok h404 h403
    unfold fetchPhaseError repoLookupError
    rw [hok]
    rw [if_neg (by simp), if_neg h404, if_neg h403]
  · intro hok
    rintro rfl
    refine ⟨?_, by simp⟩
    unfold fetchPhaseError repoLookupError treeLookupError
    rw [hok]
    rfl
  · intro hok htok h404
    unfold fetchPhaseError repoLookupError treeLookupError
    rw [hok, htok]
    rw [if_pos rfl]
    rw [if_neg (by simp), if_neg h404]

/-- C4 counterexample: a 403 from the tree lookup (repo metadata fine)
yields the generic tree-structure failure, not the rate-limit error the
claim requires. -/
theorem fetchPhase_taxonomy_cex :
    fetchPhaseError 200 "feature-x" 403 = some GithubError.treeFetchFailed ∧
    fetchPhaseError 200 "feature-x" 403 ≠ some GithubError.rateLimited := by
  exact ⟨by decide, by decide⟩

/-- C4 witness: the amended taxonomy at concrete statuses. -/
theorem fetchPhase_taxonomy_witness :
    fetchPhaseError 404 "main" 200 = some GithubError.repoNotFound ∧
    fetchPhaseError 200 "feature-x" 404 = some (GithubError.branchNotFound "feature-x") := by
  exact ⟨(fetchPhase_taxonomy 404 200 "main").1 rfl,
    ((fetchPhase_taxonomy 200 404 "feature-x").2.2.2.1 (by decide) rfl).1⟩

/-! ### File-count cap (src/services/github.ts, `limit` / `slice`) -/

/-- `options.fetchAll ? 200 : (allowedExtensions.length > 0 &&
allowedExtensions.length < 3 ? 30 : 20)`. -/
def fileLimit (fetchAll : Bool) (numExts : Nat) : Nat :=
  if fetchAll then 200 else if 0 < numExts ∧ numExts < 3 then 30 else 20

/-- `allFiles.slice(0, limit)`. -/
def capFiles (fetchAll : Bool) (numExts : Nat) (files : List String) : List String :=
  files.take (fileLimit fetchAll numExts)

/-- C5 (amended): the fetch-everything cap (200) is strictly larger than
every non-fetch-everything cap; in non-fetch-everything mode the cap for a
one- or two-extension allow-list is 30, strictly LARGER — not smaller —
than the cap 20 used for empty or broader (three or more) extension sets;
and the selection truncates to a prefix of at most the cap. -/
theorem fileLimit_policy (n m : Nat) :
    (fileLimit false n < fileLimit true m) ∧
    (0 < n → n < 3 → (m = 0 ∨ 3 ≤ m) → fileLimit false m < fileLimit false n) ∧
    (∀ (fa : Bool) (l : List String),
      (capFiles fa n l).length ≤ fileLimit fa n ∧ capFiles fa n l <+: l) := by
  refine ⟨?_, ?_, ?_⟩
  · unfold fileLimit
    by_cases h : 0 < n ∧ n < 3 <;> simp [h]
  · intro h1 h2 hm
    unfold fileLimit
    rw [if_neg Bool.false_ne_true, if_neg Bool.false_ne_true]
    rw [if_neg (show ¬ (0 < m ∧ m < 3) by rcases hm with rfl | hm3 <;> omega)]
    rw [if_pos ⟨h1, h2⟩]
    omega
  · intro fa l
    constructor
    · unfold capFiles
      rw [List.length_take]
      omega
    · exact List.take_prefix _ _

/-- C5 counterexample: narrowing the allow-list to two extensions yields
cap 30, which is NOT strictly smaller than the cap 20 used for the default
(empty) extension set — the code increases the cap for narrow filters. -/
theorem fileLimit_policy_cex :
    fileLimit false 2 = 30 ∧ fileLimit false 0 = 20 ∧
    ¬ (fileLimit false 2 < fileLimit false 0) := by
  exact ⟨by decide, by decide, by decide⟩

/-- C5 witness: the amended cap ordering at concrete sizes. -/
theorem fileLimit_policy_witness :
    fileLimit false 0 < fileLimit false 2 ∧ fileLimit false 2 < fileLimit true 0 :=
  ⟨(fileLimit_policy 2 0).2.1 (by decide) (by decide) (Or.inl rfl), (fileLimit_policy 2 0).1⟩

/-! ### The hard blocklist and the tree filter (src/services/github.ts) -/

/-- A blob entry of the git tree (`node.type`, `node.path`, `node.size`;
a missing size is modelled as 0, which is falsy in JS). -/
structure TreeNode where
  type : String
  path : String
  size : Nat
deriving DecidableEq

/-- The always-on blocklist of `fetchGithubRepoContents`. -/
def isBlockedPath (p : String) : Bool :=
  containsS p "package-lock" || containsS p "yarn.lock" || containsS p "node_modules/" ||
  containsS p "dist/" || containsS p "build/" || containsS p ".min." ||
  trailsWithS p ".png" || trailsWithS p ".jpg" || trailsWithS p ".ico" || trailsWithS p ".svg"

/-- `node.size && node.size > maxSizeBytes`; `none` is the disabled cap
(`Infinity`) of fetch-everything mode. -/
def sizeExceeds (size : Nat) (cap : Option Nat) : Bool :=
  match cap with
  | none => false
  | some m => decide (size ≠ 0 ∧ m < size)

/-- The tree filter (`treeData.tree.filter(...)`). -/
def fileFilter (fetchAll : Bool) (effExts : List String) (cap : Option Nat)
    (node : TreeNode) : Bool :=
  if node.type ≠ "blob" then false
  else if sizeExceeds node.size cap then false
  else if isBlockedPath node.path then false
  else if fetchAll then true
  else effExts.any (fun e => trailsWithS node.path e)

/-- C6: under every filter configuration (any extension allow-list, any
size cap, fetch-everything on or off) a blocklisted blob is rejected; and
the four paths named by the spec are blocklisted. -/
theorem blocklist_always :
    (∀ (fa : Bool) (exts : List String) (cap : Option Nat) (node : TreeNode),
      isBlockedPath node.path = true → fileFilter fa exts cap node = false) ∧
    (isBlockedPath "node_modules/anything.js" = true ∧ isBlockedPath "yarn.lock" = true ∧
     isBlockedPath "app.min.js" = true ∧ isBlockedPath "logo.svg" = true) := by
  constructor
  · intro fa exts cap node h
    unfold fileFilter
    by_cases h1 : node.type ≠ "blob"
    · rw [if_pos h1]
    · rw [if_neg h1]
      by_cases h2 : sizeExceeds node.size cap = true
      · rw [if_pos h2]
      · rw [if_neg h2, if_pos h]
  · exact ⟨by decide, by decide, by decide, by decide⟩

/-- C6 witness: `yarn.lock` is rejected in fetch-everything mode with the
cap disabled. -/
theorem blocklist_always_witness :
    fileFilter true [] none ⟨"blob", "yarn.lock", 10⟩ = false :=
  blocklist_always.1 true [] none ⟨"blob", "yarn.lock", 10⟩ (by decide)

/-! ### The priority sort (src/services/github.ts, `allFiles.sort`) -/

/-- The comparator's score: `readme.md` substring (lower-cased) scores 3,
a `json`/`toml`/`yml` suffix scores 2, a `src/` prefix scores 1. -/
def priorityScore (p : String) : Nat :=
  if containsS (lowerS p) "readme.md" then 3
  else if trailsWithS p "json" || trailsWithS p "toml" || trailsWithS p "yml" then 2
  else if leadsWith ("src/".data) p.data then 1
  else 0

/-- Stable insertion used to model ES2019 `Array.prototype.sort` with the
comparator `score(b.path) - score(a.path)` (stable, descending by score):
an element is placed before the first element that does not strictly
outscore it. -/
def insertByScore (x : String) : List String → List String
  | [] => [x]
  | y :: ys =>
    if priorityScore y ≤ priorityScore x then x :: y :: ys else y :: insertByScore x ys

/-- The sorted file list. -/
def sortFiles (l : List String) : List String := l.foldr insertByScore []

theorem priorityScore_le_three (p : String) : priorityScore p ≤ 3 := by
  unfold priorityScore
  split
  · omega
  · split
    · omega
    · split <;> omega

theorem insertByScore_top (x : String) :
    ∀ L : List String, (∀ y ∈ L, priorityScore y ≤ priorityScore x) →
      insertByScore x L = x :: L := by
  intro L h
  cases L with
  | nil => rfl
  | cons y ys => rw [insertByScore, if_pos (h y (List.mem_cons_self y ys))]

theorem insertByScore_skip (x : String) :
    ∀ (P L : List String), (∀ y ∈ P, priorityScore x < priorityScore y) →
      insertByScore x (P ++ L) = P ++ insertByScore x L := by
  intro P
  induction P with
  | nil => intro L _; rfl
  | cons y P' ih =>
    intro L h
    show insertByScore x (y :: (P' ++ L)) = y :: (P' ++ insertByScore x L)
    rw [insertByScore,
      if_neg (by have := h y (List.mem_cons_self y P'); omega),
      ih L (fun z hz => h z (List.mem_cons_of_mem y hz))]

theorem score_of_filter_mem (k : Nat) (l : List String) :
    ∀ y ∈ l.filter (fun p => priorityScore p == k), priorityScore y = k := by
  intro y hy
  have := (List.mem_filter.mp hy).2
  simpa using this

theorem insertByScore_mid (x : String) (A B : List String)
    (hA : ∀ y ∈ A, priorityScore x < priorityScore y)
    (hB : ∀ y ∈ B, priorityScore y ≤ priorityScore x) :
    insertByScore x (A ++ B) = A ++ x :: B := by
  rw [insertByScore_skip x A B hA, insertByScore_top x B hB]

/-- C2 (amended): the sort is the stable four-bucket sort by score — every
path whose lower-cased form contains "readme.md" comes first, then every
remaining path ending in `json`/`toml`/`yml`, then every remaining
`src/`-prefixed path, then the rest, each bucket preserving input order. -/
theorem sortFiles_buckets (l : List String) :
    sortFiles l =
      l.filter (fun p => priorityScore p == 3) ++ l.filter (fun p => priorityScore p == 2) ++
      l.filter (fun p => priorityScore p == 1) ++ l.filter (fun p => priorityScore p == 0) := by
  induction l with
  | nil => rfl
  | cons a rest ih =>
    show insertByScore a (sortFiles rest) = _
    rw [ih]
    have hm3 := score_of_filter_mem 3 rest
    have hm2 := score_of_filter_mem 2 rest
    have hm1 := score_of_filter_mem 1 rest
    have hm0 := score_of_filter_mem 0 rest
    have hcase : priorityScore a = 3 ∨ priorityScore a = 2 ∨ priorityScore a = 1 ∨
        priorityScore a = 0 := by
      have := priorityScore_le_three a
      omega
    rcases hcase with hs | hs | hs | hs
    · rw [insertByScore_top a _ (by
        intro y hy
        rw [hs]
        rcases List.mem_append.mp hy with hy | hy
        · rcases List.mem_append.mp hy with hy | hy
          · rcases List.mem_append.mp hy with hy | hy
            · rw [hm3 y hy]
            · rw [hm2 y hy]; omega
          · rw [hm1 y hy]; omega
        · rw [hm0 y hy]; omega)]
      simp [List.filter_cons, hs, List.append_assoc]
    · rw [List.append_assoc, List.append_assoc,
        insertByScore_mid a _ _
          (by intro y hy; rw [hs, hm3 y hy]; omega)
          (by
            intro y hy
            rw [hs]
            rcases List.mem_append.mp hy with hy | hy
            · rw [hm2 y hy]
            · rcases List.mem_append.mp hy with hy | hy
              · rw [hm1 y hy]; omega
              · rw [hm0 y hy]; omega)]
      simp [List.filter_cons, hs, List.append_assoc]
    · rw [List.append_assoc,
        insertByScore_mid a _ _
          (by
            intro y hy
            rw [hs]
            rcases List.mem_append.mp hy with hy | hy
            · rw [hm3 y hy]; omega
            · rw [hm2 y hy]; omega)
          (by
            intro y hy
            rw [hs]
            rcases List.mem_append.mp hy with hy | hy
            · rw [hm1 y hy]
            · rw [hm0 y hy]; omega)]
      simp [List.filter_cons, hs, List.append_assoc]
    · rw [insertByScore_mid a _ _
          (by
            intro y hy
            rw [hs]
            rcases List.mem_append.mp hy with hy | hy
            · rcases List.mem_append.mp hy with hy | hy
              · rw [hm3 y hy]; omega
              · rw [hm2 y hy]; omega
            · rw [hm1 y hy]; omega)
          (by intro y hy; rw [hs, hm0 y hy])]
      simp [List.filter_cons, hs, List.append_assoc]

/-- C2 counterexample: as stated the claim fails. `"readme.md.json"` ends
in `.json` and does not end in `readme.md` (case-insensitively), yet it
sorts BEFORE `"README.md"`: the score tests substring containment of
`readme.md`, so both paths tie at the top score and stability keeps the
`.json` file first. -/
theorem sortFiles_cex :
    sortFiles ["readme.md.json", "README.md"] = ["readme.md.json", "README.md"] ∧
    trailsWithS "readme.md.json" ".json" = true ∧
    trailsWithS (lowerS "readme.md.json") "readme.md" = false ∧
    trailsWithS (lowerS "README.md") "readme.md" = true := by
  exact ⟨by decide, by decide, by decide, by decide⟩

/-! ### The batched downloader (src/services/github.ts, step 4)

Network fetches are external: the outcome of each raw-file fetch is an
oracle `String → FetchOutcome`.  The cancellation signal is cooperative
and is checked between batches; it is modelled by `abortAt = some n`,
meaning the signal becomes set before batch `n` starts (`none`: never
set). -/

/-- Outcome of one raw-file fetch: 2xx with body text, a non-2xx response
(`!res.ok`), or a rejected request (non-abort network error). -/
inductive FetchOutcome where
  | ok (text : String)
  | httpError
  | netError
deriving DecidableEq

/-- One selected tree entry handed to the downloader. -/
structure TreeFile where
  path : String
  size : Nat
deriving DecidableEq

def isOkOutcome : FetchOutcome → Bool
  | .ok _ => true
  | .httpError => false
  | .netError => false

def outcomeText : FetchOutcome → String
  | .ok t => t
  | .httpError => ""
  | .netError => ""

/-- `MAX_TEXT_LENGTH` truncation of a downloaded body. -/
def truncateText (fetchAll : Bool) (t : String) : String :=
  let M : Nat := if fetchAll then 100000 else 50000
  if M < t.length then String.mk (t.data.take M) ++ "\n...[Truncated]..." else t

/-- One file of a running batch: a success contributes its wrapped record,
a failure contributes an `error` status update for its path and no record. -/
def processFile (fetchAll : Bool) (fetch : String → FetchOutcome) (f : TreeFile) :
    Option String × Option String :=
  match fetch f.path with
  | .ok text => (some (wrapFile f.path (truncateText fetchAll text)), none)
  | .httpError => (none, some f.path)
  | .netError => (none, some f.path)

/-- Split into batches of `n` (the loop `for (i...; i += batchSize)` with
`slice(i, i + batchSize)`); fuel-driven, `l.length` fuel always suffices. -/
def chunksOfCore (n : Nat) : Nat → List α → List (List α)
  | 0, _ => []
  | _ + 1, [] => []
  | fuel + 1, l => l.take n :: chunksOfCore n fuel (l.drop n)

def chunksOf (n : Nat) (l : List α) : List (List α) := chunksOfCore n l.length l

/-- Whether the cancellation signal is set at check point `i` (before
batch `i`; `i = batches.length` is the final check after the loop). -/
def abortedAt (abortAt : Option Nat) (i : Nat) : Bool :=
  match abortAt with
  | none => false
  | some n => decide (n ≤ i)

/-- The batch loop: check the signal, run the batch, keep the non-null
records (in order) and the error statuses, continue. -/
def runBatches (fetchAll : Bool) (fetch : String → FetchOutcome) (abortAt : Option Nat) :
    Nat → List (List TreeFile) → List String × List String
  | _, [] => ([], [])
  | i, b :: bs =>
    if abortedAt abortAt i then ([], [])
    else
      let outs := b.map (processFile fetchAll fetch)
      let step := runBatches fetchAll fetch abortAt (i + 1) bs
      (outs.filterMap (fun o => o.1) ++ step.1, outs.filterMap (fun o => o.2) ++ step.2)

/-- The download phase: returns the wrapped records and the error-status
paths, or throws `DownloadFailed` when nothing was downloaded and the
signal is not set. -/
def downloadFiles (files : List TreeFile) (fetch : String → FetchOutcome)
    (fetchAll : Bool) (abortAt : Option Nat) : Except String (List String × List String) :=
  let r := runBatches fetchAll fetch abortAt 0 (chunksOf 5 files)
  if r.1 = [] ∧ abortedAt abortAt (chunksOf 5 files).length = false then
    .error "Failed to download raw file contents. Network or CORS issue."
  else
    .ok r

/-- The batches the loop actually runs before the signal check stops it. -/
def processedPart (abortAt : Option Nat) (i : Nat) (bs : List (List TreeFile)) :
    List (List TreeFile) :=
  match abortAt with
  | none => bs
  | some n => bs.take (n - i)

/-- The files of the batches that actually ran. -/
def processedFiles (files : List TreeFile) (abortAt : Option Nat) : List TreeFile :=
  (processedPart abortAt 0 (chunksOf 5 files)).flatten

theorem filterMap_fst_batch (fa : Bool) (fetch : String → FetchOutcome) (b : List TreeFile) :
    (b.map (processFile fa fetch)).filterMap (fun o => o.1) =
      (b.filter (fun f => isOkOutcome (fetch f.path))).map
        (fun f => wrapFile f.path (truncateText fa (outcomeText (fetch f.path)))) := by
  induction b with
  | nil => rfl
  | cons f rest ih =>
    simp only [List.map_cons, List.filterMap_cons, List.filter_cons]
    cases hf : fetch f.path <;>
      simp [processFile, hf, isOkOutcome, outcomeText, ih]

theorem filterMap_snd_batch (fa : Bool) (fetch : String → FetchOutcome) (b : List TreeFile) :
    (b.map (processFile fa fetch)).filterMap (fun o => o.2) =
      (b.filter (fun f => !isOkOutcome (fetch f.path))).map (fun f => f.path) := by
  induction b with
  | nil => rfl
  | cons f rest ih =>
    simp only [List.map_cons, List.filterMap_cons, List.filter_cons]
    cases hf : fetch f.path <;>
      simp [processFile, hf, isOkOutcome, ih]

theorem runBatches_eq (fa : Bool) (fetch : String → FetchOutcome) (abortAt : Option Nat) :
    ∀ (bs : List (List TreeFile)) (i : Nat),
      runBatches fa fetch abortAt i bs =
        (((processedPart abortAt i bs).flatten.filter
            (fun f => isOkOutcome (fetch f.path))).map
          (fun f => wrapFile f.path (truncateText fa (outcomeText (fetch f.path)))),
         ((processedPart abortAt i bs).flatten.filter
            (fun f => !isOkOutcome (fetch f.path))).map (fun f => f.path)) := by
  intro bs
  induction bs with
  | nil =>
    intro i
    have hpp : processedPart abortAt i [] = [] := by
      unfold processedPart
      cases abortAt <;> simp
    rw [show runBatches fa fetch abortAt i [] = ([], []) from rfl, hpp]
    rfl
  | cons b bs ih =>
    intro i
    by_cases hab : abortedAt abortAt i = true
    · obtain ⟨n, rfl⟩ : ∃ n, abortAt = some n := by
        cases abortAt with
        | none => simp [abortedAt] at hab
        | some n => exact ⟨n, rfl⟩
      have hn : n ≤ i := by
        simp [abortedAt] at hab
        exact hab
      have hpp : processedPart (some n) i (b :: bs) = [] := by
        show List.take (n - i) (b :: bs) = []
        rw [show n - i = 0 from by omega]
        rfl
      rw [runBatches, if_pos hab, hpp]
      rfl
    · have hab2 : abortedAt abortAt i = false := by
        cases h : abortedAt abortAt i
        · rfl
        · exact absurd h hab
      have hpp : processedPart abortAt i (b :: bs) = b :: processedPart abortAt (i + 1) bs := by
        unfold processedPart
        cases abortAt with
        | none => rfl
        | some n =>
          have hn : i < n := by
            simp [abortedAt] at hab2
            omega
          obtain ⟨k, hk⟩ : ∃ k, n - i = k + 1 := ⟨n - i - 1, by omega⟩
          show List.take (n - i) (b :: bs) = b :: List.take (n - (i + 1)) bs
          rw [hk, List.take_succ_cons, show n - (i + 1) = k from by omega]
      rw [runBatches, if_neg hab, hpp]
      simp only [List.flatten_cons, List.filter_append, List.map_append]
      rw [filterMap_fst_batch, filterMap_snd_batch, ih (i + 1)]

/-- The spec's partial-failure scenario: 8 files, batch size 5; the first
five fetches succeed, the last three return 500s. -/
def scenarioFiles : List TreeFile :=
  ["a1", "a2", "a3", "a4", "a5", "a6", "a7", "a8"].map (fun p => ⟨p, 1⟩)

def scenarioFetch : String → FetchOutcome := fun p =>
  if p = "a6" ∨ p = "a7" ∨ p = "a8" then .httpError else .ok "T"

/-- C3: the downloader characterised.  Every file of a processed batch
whose fetch fails is reported with status `error` and contributes no
record; the operation throws `DownloadFailed` exactly when no file
succeeded AND the cancellation signal is not set; in every other case —
failures or cancellation included — it returns the records of the
successfully fetched subset, in order.  In particular the 8-file scenario
(batch 1 succeeds, batch 2's three files all fail) succeeds with exactly 5
records and 3 error entries. -/
theorem downloadFiles_spec (files : List TreeFile) (fetch : String → FetchOutcome)
    (fa : Bool) (abortAt : Option Nat) :
    (downloadFiles files fetch fa abortAt =
      if ((processedFiles files abortAt).filter (fun f => isOkOutcome (fetch f.path)) = [] ∧
          abortedAt abortAt (chunksOf 5 files).length = false) then
        Except.error "Failed to download raw file contents. Network or CORS issue."
      else
        Except.ok
          (((processedFiles files abortAt).filter (fun f => isOkOutcome (fetch f.path))).map
             (fun f => wrapFile f.path (truncateText fa (outcomeText (fetch f.path)))),
           ((processedFiles files abortAt).filter (fun f => !isOkOutcome (fetch f.path))).map
             (fun f => f.path))) ∧
    ((downloadFiles scenarioFiles scenarioFetch false none).toOption.map
        (fun r => (r.1.length, r.2.length)) = some (5, 3)) := by
  constructor
  · unfold downloadFiles processedFiles
    rw [runBatches_eq]
    by_cases hs : ((processedPart abortAt 0 (chunksOf 5 files)).flatten.filter
        (fun f => isOkOutcome (fetch f.path))) = []
    · rw [hs]
      simp
    · rw [if_neg (fun hc => hs (List.map_eq_nil_iff.mp hc.1)),
        if_neg (fun hc => hs hc.1)]
  · decide

/-! ### The indexer (`indexCodebase` in the RAG service module)

The embedding service is external: the outcome of the embedding request
for chunk `i` is an oracle `Nat → Option (List ℚ)` (`none`: the request
threw and was caught). -/

/-- The sequential indexing loop: report progress `(i+1, total)`, then
push the chunk with its embedding on success, or unchanged (without an
embedding) on failure. -/
def indexLoop (embedAt : Nat → Option (List ℚ)) (total : Nat) :
    Nat → List CodeChunk → List CodeChunk × List (Nat × Nat)
  | _, [] => ([], [])
  | i, c :: rest =>
    let entry : CodeChunk :=
      match embedAt i with
      | some v => { c with embedding := some v }
      | none => c
    let step := indexLoop embedAt total (i + 1) rest
    (entry :: step.1, (i + 1, total) :: step.2)

/-- `indexCodebase`: chunk the corpus, then embed each chunk in order. -/
def indexCodebase (corpus : String) (embedAt : Nat → Option (List ℚ)) :
    List CodeChunk × List (Nat × Nat) :=
  indexLoop embedAt (chunkCode corpus).length 0 (chunkCode corpus)

theorem buildChunks_embedding_none : ∀ (pairs : List (List Char × List Char)) (idx : Nat),
    ∀ ch ∈ buildChunks idx pairs, ch.embedding = none := by
  intro pairs
  induction pairs with
  | nil => intro idx ch hch; simp [buildChunks] at hch
  | cons pr rest ih =>
    intro idx ch hch
    obtain ⟨f, c⟩ := pr
    by_cases hlen : 2000 < c.length
    · simp only [buildChunks, if_pos hlen, List.mem_append] at hch
      rcases hch with hch | hch
      · refine mapWithIndex_forall _ (fun ch => ch.embedding = none) 0 _ ?_ ch hch
        intro j sc _
        rfl
      · exact ih _ ch hch
    · simp only [buildChunks, if_neg hlen, List.mem_cons] at hch
      rcases hch with rfl | hch
      · rfl
      · exact ih _ ch hch

theorem chunkCode_embedding_none (s : String) : ∀ ch ∈ chunkCode s, ch.embedding = none :=
  buildChunks_embedding_none _ 0

theorem indexLoop_eq (embedAt : Nat → Option (List ℚ)) (total : Nat) :
    ∀ (l : List CodeChunk) (i : Nat), (∀ c ∈ l, c.embedding = none) →
      indexLoop embedAt total i l =
        (mapWithIndex (fun j c => { c with embedding := embedAt j }) i l,
         mapWithIndex (fun j _ => (j + 1, total)) i l) := by
  intro l
  induction l with
  | nil => intro i _; rfl
  | cons c rest ih =>
    intro i h
    have hc : c.embedding = none := h c (List.mem_cons_self c rest)
    have hstep := ih (i + 1) (fun x hx => h x (List.mem_cons_of_mem c hx))
    cases he : embedAt i with
    | some v =>
      simp only [indexLoop, he, hstep, mapWithIndex]
    | none =>
      have hentry : ({ c with embedding := none } : CodeChunk) = c := by
        cases c
        simp_all
      simp only [indexLoop, he, hstep, mapWithIndex, hentry]

/-- C9: indexing returns exactly one entry per chunk of `chunkCode`, in
order, preserving id, fileName and content; an entry carries an embedding
exactly when its request succeeded (a per-chunk failure keeps the chunk,
without an embedding, and never aborts the loop); progress is reported as
`(current, total)` for each chunk attempted, in order. -/
theorem indexCodebase_spec (corpus : String) (embedAt : Nat → Option (List ℚ)) :
    indexCodebase corpus embedAt =
      (mapWithIndex (fun i c => { c with embedding := embedAt i }) 0 (chunkCode corpus),
       mapWithIndex (fun i _ => (i + 1, (chunkCode corpus).length)) 0 (chunkCode corpus)) ∧
    (indexCodebase corpus embedAt).1.length = (chunkCode corpus).length := by
  have h := indexLoop_eq embedAt (chunkCode corpus).length (chunkCode corpus) 0
    (chunkCode_embedding_none corpus)
  refine ⟨h, ?_⟩
  rw [show (indexCodebase corpus embedAt).1 =
    (indexLoop embedAt (chunkCode corpus).length 0 (chunkCode corpus)).1 from rfl, h]
  exact mapWithIndex_length _ 0 _

/-! ### Similarity search (`cosineSimilarity` / `searchCodebase`)

Vector components are exact rationals and the float cosine scores are
idealised as exact reals.  The comparator `(a, b) => b.score - a.score`
on cosine scores `dot/(‖q‖·‖e‖)` is decided exactly by sign analysis and
cross-multiplied squares (`simGe`), which is proved equivalent to the real
comparison below; the stable JS sort is modelled by stable insertion. -/

/-- The dot-product loop of `cosineSimilarity` (vectors of equal length;
the same loop also yields the squared magnitudes). -/
def dotQ : List ℚ → List ℚ → ℚ
  | [], _ => 0
  | _ :: _, [] => 0
  | a :: as, b :: bs => a * b + dotQ as bs

/-- The embedding of a chunk that has one. -/
def embOf (c : CodeChunk) : List ℚ := c.embedding.getD []

/-- Decide `d1/√n1 ≥ d2/√n2` (for positive `n1`, `n2`) by signs and
squared cross-multiplication. -/
def simGe (d1 n1 d2 n2 : ℚ) : Bool :=
  if 0 ≤ d1 then
    (if 0 ≤ d2 then decide (d2 ^ 2 * n1 ≤ d1 ^ 2 * n2) else true)
  else
    (if 0 ≤ d2 then false else decide (d1 ^ 2 * n2 ≤ d2 ^ 2 * n1))

/-- A chunk with its score data: the query dot product and the chunk
embedding's squared magnitude. -/
def chunkScored (q : List ℚ) (c : CodeChunk) : CodeChunk × ℚ × ℚ :=
  (c, dotQ q (embOf c), dotQ (embOf c) (embOf c))

/-- Stable insertion for the descending sort by cosine score. -/
def insertScored (x : CodeChunk × ℚ × ℚ) :
    List (CodeChunk × ℚ × ℚ) → List (CodeChunk × ℚ × ℚ)
  | [] => [x]
  | y :: ys =>
    if simGe x.2.1 x.2.2 y.2.1 y.2.2 then x :: y :: ys else y :: insertScored x ys

def sortScored (l : List (CodeChunk × ℚ × ℚ)) : List (CodeChunk × ℚ × ℚ) :=
  l.foldr insertScored []

/-- `searchCodebase`: no embedded chunk → `[]` (without consulting the
query-embedding oracle); failed query embedding (`none`) → `[]`;
otherwise score the embedded chunks, sort descending, take `topK`. -/
def searchCodebase (queryEmbedding : Option (List ℚ)) (indexedChunks : List CodeChunk)
    (topK : Nat) : List CodeChunk :=
  if !(indexedChunks.any fun c => c.embedding.isSome) then []
  else
    match queryEmbedding with
    | none => []
    | some q =>
      (((sortScored ((indexedChunks.filter fun c => c.embedding.isSome).map
          (chunkScored q))).map (fun p => p.1)).take topK)

theorem mem_insertScored (x a : CodeChunk × ℚ × ℚ) :
    ∀ l, a ∈ insertScored x l ↔ a = x ∨ a ∈ l := by
  intro l
  induction l with
  | nil => simp [insertScored]
  | cons y ys ih =>
    by_cases h : simGe x.2.1 x.2.2 y.2.1 y.2.2 = true
    · rw [insertScored, if_pos h]
      simp
    · rw [insertScored, if_neg h]
      simp only [List.mem_cons, ih]
      tauto

theorem mem_sortScored (a : CodeChunk × ℚ × ℚ) :
    ∀ l, a ∈ sortScored l ↔ a ∈ l := by
  intro l
  induction l with
  | nil => simp [sortScored]
  | cons y ys ih =>
    show a ∈ insertScored y (sortScored ys) ↔ _
    rw [mem_insertScored, ih]
    simp [eq_comm]

theorem simGe_iff0 (d1 n1 d2 n2 : ℚ) (h1 : 0 < n1) (h2 : 0 < n2) :
    simGe d1 n1 d2 n2 = true ↔
      ((d2 : ℝ) / Real.sqrt (n2 : ℝ) ≤ (d1 : ℝ) / Real.sqrt (n1 : ℝ)) := by
  have hs1 : (0:ℝ) < Real.sqrt (n1 : ℝ) := Real.sqrt_pos.mpr (by exact_mod_cast h1)
  have hs2 : (0:ℝ) < Real.sqrt (n2 : ℝ) := Real.sqrt_pos.mpr (by exact_mod_cast h2)
  have hsq1 : Real.sqrt (n1 : ℝ) * Real.sqrt (n1 : ℝ) = (n1 : ℝ) :=
    Real.mul_self_sqrt (by exact_mod_cast h1.le)
  have hsq2 : Real.sqrt (n2 : ℝ) * Real.sqrt (n2 : ℝ) = (n2 : ℝ) :=
    Real.mul_self_sqrt (by exact_mod_cast h2.le)
  rw [div_le_div_iff₀ hs2 hs1]
  unfold simGe
  by_cases hd1 : (0 : ℚ) ≤ d1 <;> by_cases hd2 : (0 : ℚ) ≤ d2
  · rw [if_pos hd1, if_pos hd2, decide_eq_true_eq]
    have hd1R : (0:ℝ) ≤ (d1:ℝ) := by exact_mod_cast hd1
    have hd2R : (0:ℝ) ≤ (d2:ℝ) := by exact_mod_cast hd2
    have e2 : ((d2:ℝ) * Real.sqrt n1) * ((d2:ℝ) * Real.sqrt n1) = (d2:ℝ)^2 * (n1:ℝ) := by
      rw [show ((d2:ℝ) * Real.sqrt n1) * ((d2:ℝ) * Real.sqrt n1) =
        (d2:ℝ)^2 * (Real.sqrt n1 * Real.sqrt n1) from by ring, hsq1]
    have e1 : ((d1:ℝ) * Real.sqrt n2) * ((d1:ℝ) * Real.sqrt n2) = (d1:ℝ)^2 * (n2:ℝ) := by
      rw [show ((d1:ℝ) * Real.sqrt n2) * ((d1:ℝ) * Real.sqrt n2) =
        (d1:ℝ)^2 * (Real.sqrt n2 * Real.sqrt n2) from by ring, hsq2]
    constructor
    · intro h
      have hcast : (d2:ℝ)^2 * (n1:ℝ) ≤ (d1:ℝ)^2 * (n2:ℝ) := by exact_mod_cast h
      rw [← e2, ← e1] at hcast
      exact (mul_self_le_mul_self_iff (mul_nonneg hd2R hs1.le) (mul_nonneg hd1R hs2.le)).mpr hcast
    · intro h
      have hsq := mul_self_le_mul_self (mul_nonneg hd2R hs1.le) h
      rw [e2, e1] at hsq
      exact_mod_cast hsq
  · rw [if_pos hd1, if_neg hd2]
    have hd1R : (0:ℝ) ≤ (d1:ℝ) := by exact_mod_cast hd1
    have hd2R : (d2:ℝ) < 0 := by exact_mod_cast (lt_of_not_ge hd2)
    constructor
    · intro _
      exact le_trans (le_of_lt (mul_neg_of_neg_of_pos hd2R hs1)) (mul_nonneg hd1R hs2.le)
    · intro _
      rfl
  · rw [if_neg hd1, if_pos hd2]
    have hd1R : (d1:ℝ) < 0 := by exact_mod_cast (lt_of_not_ge hd1)
    have hd2R : (0:ℝ) ≤ (d2:ℝ) := by exact_mod_cast hd2
    constructor
    · intro h
      cases h
    · intro h
      exfalso
      have hlt : (d1:ℝ) * Real.sqrt n2 < 0 := mul_neg_of_neg_of_pos hd1R hs2
      have hge : (0:ℝ) ≤ (d2:ℝ) * Real.sqrt n1 := mul_nonneg hd2R hs1.le
      linarith
  · rw [if_neg hd1, if_neg hd2, decide_eq_true_eq]
    have hd1R : (d1:ℝ) < 0 := by exact_mod_cast (lt_of_not_ge hd1)
    have hd2R : (d2:ℝ) < 0 := by exact_mod_cast (lt_of_not_ge hd2)
    have hA : (0:ℝ) ≤ -((d1:ℝ) * Real.sqrt n2) := by nlinarith
    have hB : (0:ℝ) ≤ -((d2:ℝ) * Real.sqrt n1) := by nlinarith
    have e1 : (-((d1:ℝ) * Real.sqrt n2)) * (-((d1:ℝ) * Real.sqrt n2)) = (d1:ℝ)^2 * (n2:ℝ) := by
      rw [show (-((d1:ℝ) * Real.sqrt n2)) * (-((d1:ℝ) * Real.sqrt n2)) =
        (d1:ℝ)^2 * (Real.sqrt n2 * Real.sqrt n2) from by ring, hsq2]
    have e2 : (-((d2:ℝ) * Real.sqrt n1)) * (-((d2:ℝ) * Real.sqrt n1)) = (d2:ℝ)^2 * (n1:ℝ) := by
      rw [show (-((d2:ℝ) * Real.sqrt n1)) * (-((d2:ℝ) * Real.sqrt n1)) =
        (d2:ℝ)^2 * (Real.sqrt n1 * Real.sqrt n1) from by ring, hsq1]
    constructor
    · intro h
      have hcast : (d1:ℝ)^2 * (n2:ℝ) ≤ (d2:ℝ)^2 * (n1:ℝ) := by exact_mod_cast h
      rw [← e1, ← e2] at hcast
      have := (mul_self_le_mul_self_iff hA hB).mpr hcast
      linarith
    · intro h
      have hneg : -((d1:ℝ) * Real.sqrt n2) ≤ -((d2:ℝ) * Real.sqrt n1) := by linarith
      have := mul_self_le_mul_self hA hneg
      rw [e1, e2] at this
      exact_mod_cast this

theorem simGe_iff (nq d1 n1 d2 n2 : ℚ) (hq : 0 < nq) (h1 : 0 < n1) (h2 : 0 < n2) :
    simGe d1 n1 d2 n2 = true ↔
      ((d2 : ℝ) / (Real.sqrt (nq : ℝ) * Real.sqrt (n2 : ℝ)) ≤
       (d1 : ℝ) / (Real.sqrt (nq : ℝ) * Real.sqrt (n1 : ℝ))) := by
  have hsq : (0:ℝ) < Real.sqrt (nq : ℝ) := Real.sqrt_pos.mpr (by exact_mod_cast hq)
  have hrw1 : (d1 : ℝ) / (Real.sqrt (nq : ℝ) * Real.sqrt (n1 : ℝ)) =
      ((d1 : ℝ) / Real.sqrt (n1 : ℝ)) / Real.sqrt (nq : ℝ) := by
    rw [mul_comm, div_div]
  have hrw2 : (d2 : ℝ) / (Real.sqrt (nq : ℝ) * Real.sqrt (n2 : ℝ)) =
      ((d2 : ℝ) / Real.sqrt (n2 : ℝ)) / Real.sqrt (nq : ℝ) := by
    rw [mul_comm, div_div]
  rw [hrw1, hrw2, div_le_div_iff_of_pos_right hsq]
  exact simGe_iff0 d1 n1 d2 n2 h1 h2

theorem insertScored_pairwise (R : CodeChunk × ℚ × ℚ → CodeChunk × ℚ × ℚ → Prop)
    (W : CodeChunk × ℚ × ℚ → Prop)
    (hiff : ∀ a b, W a → W b → (simGe a.2.1 a.2.2 b.2.1 b.2.2 = true ↔ R a b))
    (htot : ∀ a b, R a b ∨ R b a)
    (htrans : ∀ a b c, R a b → R b c → R a c) :
    ∀ (x : CodeChunk × ℚ × ℚ) (l : List (CodeChunk × ℚ × ℚ)),
      W x → (∀ y ∈ l, W y) → l.Pairwise R → (insertScored x l).Pairwise R := by
  intro x l
  induction l with
  | nil => intro _ _ _; simp [insertScored]
  | cons y ys ih =>
    intro hx hl hp
    have hy : W y := hl y (List.mem_cons_self y ys)
    rcases List.pairwise_cons.mp hp with ⟨hyz, hys⟩
    by_cases hxy : simGe x.2.1 x.2.2 y.2.1 y.2.2 = true
    · rw [insertScored, if_pos hxy]
      have hRxy : R x y := (hiff x y hx hy).mp hxy
      refine List.pairwise_cons.mpr ⟨?_, hp⟩
      intro z hz
      rcases List.mem_cons.mp hz with rfl | hz
      · exact hRxy
      · exact htrans x y z hRxy (hyz z hz)
    · rw [insertScored, if_neg hxy]
      have hRyx : R y x := by
        rcases htot x y with hR | hR
        · exact absurd ((hiff x y hx hy).mpr hR) hxy
        · exact hR
      refine List.pairwise_cons.mpr ⟨?_, ?_⟩
      · intro z hz
        rcases (mem_insertScored x z ys).mp hz with rfl | hz
        · exact hRyx
        · exact hyz z hz
      · exact ih hx (fun z hz => hl z (List.mem_cons_of_mem y hz)) hys

theorem sortScored_pairwise (R : CodeChunk × ℚ × ℚ → CodeChunk × ℚ × ℚ → Prop)
    (W : CodeChunk × ℚ × ℚ → Prop)
    (hiff : ∀ a b, W a → W b → (simGe a.2.1 a.2.2 b.2.1 b.2.2 = true ↔ R a b))
    (htot : ∀ a b, R a b ∨ R b a)
    (htrans : ∀ a b c, R a b → R b c → R a c) :
    ∀ l : List (CodeChunk × ℚ × ℚ), (∀ y ∈ l, W y) → (sortScored l).Pairwise R := by
  intro l
  induction l with
  | nil => intro _; simp [sortScored]
  | cons x xs ih =>
    intro hl
    show (insertScored x (sortScored xs)).Pairwise R
    refine insertScored_pairwise R W hiff htot htrans x (sortScored xs)
      (hl x (List.mem_cons_self x xs)) ?_ ?_
    · intro y hy
      exact hl y (List.mem_cons_of_mem x ((mem_sortScored y xs).mp hy))
    · exact ih (fun y hy => hl y (List.mem_cons_of_mem x hy))

/-- C8: if no chunk has an embedding the search returns `[]` whatever the
query-embedding oracle would answer (the call is never consulted); a
failed query embedding returns `[]` instead of propagating; the result
always has at most `K` elements, every element has an embedding (chunks
without one never appear); and — for a query and embeddings of matching
length and non-zero magnitude — the result is ordered by descending cosine
similarity (dot product over the product of Euclidean norms). -/
theorem searchCodebase_contract :
    (∀ (chunks : List CodeChunk) (K : Nat) (qe : Option (List ℚ)),
      (∀ c ∈ chunks, c.embedding = none) → searchCodebase qe chunks K = []) ∧
    (∀ (chunks : List CodeChunk) (K : Nat), searchCodebase none chunks K = []) ∧
    (∀ (qe : Option (List ℚ)) (chunks : List CodeChunk) (K : Nat),
      (searchCodebase qe chunks K).length ≤ K) ∧
    (∀ (qe : Option (List ℚ)) (chunks : List CodeChunk) (K : Nat),
      ∀ c ∈ searchCodebase qe chunks K, c.embedding.isSome = true) ∧
    (∀ (q : List ℚ) (chunks : List CodeChunk) (K : Nat),
      0 < dotQ q q →
      (∀ c ∈ chunks, c.embedding.isSome = true →
        0 < dotQ (embOf c) (embOf c) ∧ (embOf c).length = q.length) →
      (searchCodebase (some q) chunks K).Pairwise (fun c₁ c₂ =>
        ((dotQ q (embOf c₂) : ℚ) : ℝ) /
            (Real.sqrt ((dotQ q q : ℚ) : ℝ) *
              Real.sqrt ((dotQ (embOf c₂) (embOf c₂) : ℚ) : ℝ)) ≤
        ((dotQ q (embOf c₁) : ℚ) : ℝ) /
            (Real.sqrt ((dotQ q q : ℚ) : ℝ) *
              Real.sqrt ((dotQ (embOf c₁) (embOf c₁) : ℚ) : ℝ)))) := by
  refine ⟨?_, ?_, ?_, ?_, ?_⟩
  · intro chunks K qe h
    have hany : (chunks.any fun c => c.embedding.isSome) = false := by
      rw [List.any_eq_false]
      intro c hc
      simp [h c hc]
    unfold searchCodebase
    rw [hany]
    rfl
  · intro chunks K
    unfold searchCodebase
    cases chunks.any fun c => c.embedding.isSome <;> rfl
  · intro qe chunks K
    unfold searchCodebase
    cases hA : chunks.any fun c => c.embedding.isSome
    · simp
    · cases qe with
      | none => simp
      | some q =>
        simp only [Bool.not_true, if_false]
        exact List.length_take_le K _
  · intro qe chunks K c hc
    unfold searchCodebase at hc
    cases hA : chunks.any fun c => c.embedding.isSome
    · rw [hA] at hc
      simp at hc
    · rw [hA] at hc
      cases qe with
      | none => simp at hc
      | some q =>
        simp only [Bool.not_true, if_false] at hc
        have hc2 := List.mem_of_mem_take hc
        obtain ⟨p, hp, rfl⟩ := List.mem_map.mp hc2
        have hp2 := (mem_sortScored p _).mp hp
        obtain ⟨c', hc', hpc⟩ := List.mem_map.mp hp2
        rw [← hpc]
        exact (List.mem_filter.mp hc').2
  · intro q chunks K hq hW
    unfold searchCodebase
    cases hA : chunks.any fun c => c.embedding.isSome
    · simp
    · simp only [Bool.not_true, if_false]
      have hWall : ∀ p ∈ (chunks.filter fun c => c.embedding.isSome).map (chunkScored q),
          0 < p.2.2 := by
        intro p hp
        obtain ⟨c', hc', rfl⟩ := List.mem_map.mp hp
        have hmf := List.mem_filter.mp hc'
        exact (hW c' hmf.1 hmf.2).1
      have hpairR := sortScored_pairwise
        (fun p₁ p₂ =>
          ((p₂.2.1 : ℚ) : ℝ) / (Real.sqrt ((dotQ q q : ℚ) : ℝ) * Real.sqrt ((p₂.2.2 : ℚ) : ℝ)) ≤
          ((p₁.2.1 : ℚ) : ℝ) / (Real.sqrt ((dotQ q q : ℚ) : ℝ) * Real.sqrt ((p₁.2.2 : ℚ) : ℝ)))
        (fun p => 0 < p.2.2)
        (fun a b ha hb => simGe_iff (dotQ q q) a.2.1 a.2.2 b.2.1 b.2.2 hq ha hb)
        (fun a b => le_total _ _)
        (fun a b c h1 h2 => le_trans h2 h1)
        ((chunks.filter fun c => c.embedding.isSome).map (chunkScored q)) hWall
      have hInv : ∀ p ∈ sortScored ((chunks.filter fun c => c.embedding.isSome).map
          (chunkScored q)), p.2.1 = dotQ q (embOf p.1) ∧ p.2.2 = dotQ (embOf p.1) (embOf p.1) := by
        intro p hp
        have hp2 := (mem_sortScored p _).mp hp
        obtain ⟨c', _, rfl⟩ := List.mem_map.mp hp2
        exact ⟨rfl, rfl⟩
      have hpairC := List.Pairwise.imp_of_mem
        (fun {p₁ p₂} h1 h2 hR => by
          rw [(hInv p₁ h1).1, (hInv p₁ h1).2, (hInv p₂ h2).1, (hInv p₂ h2).2] at hR
          exact hR) hpairR
      refine (?_ : List.Pairwise _ _).sublist (List.take_sublist K _)
      rw [List.pairwise_map]
      exact hpairC

/-- C8 witness: the ordering contract at a concrete query and two embedded
chunks. -/
theorem searchCodebase_witness :
    (searchCodebase (some [1, 0])
        [⟨"chunk-0", "a", "x", some [3, 4]⟩, ⟨"chunk-1", "b", "y", some [1, 0]⟩] 2).Pairwise
      (fun c₁ c₂ =>
        ((dotQ [1, 0] (embOf c₂) : ℚ) : ℝ) /
            (Real.sqrt ((dotQ [1, 0] [1, 0] : ℚ) : ℝ) *
              Real.sqrt ((dotQ (embOf c₂) (embOf c₂) : ℚ) : ℝ)) ≤
        ((dotQ [1, 0] (embOf c₁) : ℚ) : ℝ) /
            (Real.sqrt ((dotQ [1, 0] [1, 0] : ℚ) : ℝ) *
              Real.sqrt ((dotQ (embOf c₁) (embOf c₁) : ℚ) : ℝ))) :=
  searchCodebase_contract.2.2.2.2 [1, 0]
    [⟨"chunk-0", "a", "x", some [3, 4]⟩, ⟨"chunk-1", "b", "y", some [1, 0]⟩] 2
    (by norm_num [dotQ])
    (by
      intro c hc
      rcases List.mem_cons.mp hc with rfl | hc
      · intro _
        refine ⟨by norm_num [dotQ, embOf], by simp [embOf]⟩
      · rcases List.mem_cons.mp hc with rfl | hc
        · intro _
          refine ⟨by norm_num [dotQ, embOf], by simp [embOf]⟩
        · exact absurd hc (List.not_mem_nil c))
